import Mathlib

/-!
Shallow embedding of `src/main.rs` of the `rust_blockchain` repository:
a minimal proof-of-work blockchain with block hashing/mining
(`Block::calculate_hash`, `Block::mine`), chain construction and validation
(`Blockchain::new`, `Blockchain::add_block`, `Blockchain::validate_chain`),
and a Merkle-root routine over transactions
(`Transaction::create_merkle_root`).

Modelling conventions:
  * The SHA-256 hex digest (the composite
    `hex::encode(Sha256::digest(...))`, which lives in the external `sha2`
    and `hex` crates, not in this repository) is an abstract parameter
    `H : String → String`.  The spec (§4.1) allows any 256-bit digest; the
    only digest fact any theorem needs (a 64-hex-character output) is taken
    as an explicit hypothesis where it matters.
  * Rust `usize`/`u64` counters (`index`, `timestamp`, `nonce`) are `Nat`;
    no claim depends on wrap-around, which would need about 2^64 mining
    iterations to reach.
  * Rust panics (slice out of range in `mine`, `hashes[0]` on an empty
    vector in `create_merkle_root`, `.last().unwrap()` on an empty chain)
    are modelled explicitly: `MineResult.panicked`, `Option.none`.
  * The unbounded `loop` in `mine` is modelled with explicit fuel;
    `MineResult.outOfFuel` marks exhaustion, so every theorem about a
    completed `mine` is conditional on the loop having terminated, exactly
    as "after mine(d) completes" reads.
  * The source's `Block` struct declares a field `transactions:
    Vec<Transaction>`, while `Block::new`, `calculate_hash` and `mine` read
    and write a field `data: String` that the struct declaration does not
    list (the program text is inconsistent with itself).  The embedding
    carries both fields so that the relationship between `transactions` and
    the content hash can be stated; the constructor leaves `transactions`
    empty, since the source constructor never initialises it.
  * Rust byte-slicing `&s[..d]` equals character-slicing here because every
    sliced string is hex output (ASCII).
-/

/-- A transaction record.  In the source `amount` is an `f32` that is only
ever consumed through its `Debug` rendering inside
`Transaction::create_merkle_root`; the field here stores that rendered
decimal string directly (floating-point formatting abstracted to its
output), which is the only view of the value the program takes. -/
structure Transaction where
  sender : String
  receiver : String
  amount : String
  deriving DecidableEq, Repr, Inhabited

/-- A block.  Fields as declared in the source struct, plus the `data`
field that the source `impl` actually uses (see the header comment on the
struct mismatch). -/
structure Block where
  index : Nat
  timestamp : Nat
  transactions : List Transaction
  previous_hash : String
  hash : String
  nonce : Nat
  data : String
  deriving DecidableEq, Repr, Inhabited

/-- `"0".repeat(d)`: the string of `d` zero characters. -/
def zeros (d : Nat) : String := String.mk (List.replicate d '0')

/-- The first `n` characters of `s` (Rust `&s[..n]` on ASCII content,
assuming the bound check passed). -/
def strTake (s : String) (n : Nat) : String := String.mk (s.data.take n)

/-- The header string hashed by `Block::calculate_hash`:
`format!("{}:{}:{}:{}:{}", index, timestamp, previous_hash, data, nonce)`. -/
def headers (b : Block) : String :=
  toString b.index ++ ":" ++ toString b.timestamp ++ ":" ++ b.previous_hash
    ++ ":" ++ b.data ++ ":" ++ toString b.nonce

/-- `Block::calculate_hash`: SHA-256 hex digest of the header string. -/
def calculateHash (H : String → String) (b : Block) : String :=
  H (headers b)

/-- `Block::new`: construct with the given fields, `nonce = 0`, then set
`hash = calculate_hash()`.  `transactions` is never initialised by the
source constructor; it is the empty list here. -/
def Block.new (H : String → String) (index timestamp : Nat)
    (previous_hash data : String) : Block :=
  let b : Block :=
    { index := index, timestamp := timestamp, transactions := [],
      previous_hash := previous_hash, hash := "", nonce := 0, data := data }
  { b with hash := calculateHash H b }

/-- Outcome of the `mine` loop under fuel: normal exit, a Rust panic
(slice index out of range), or fuel exhaustion. -/
inductive MineResult where
  | ok (b : Block)
  | panicked
  | outOfFuel
  deriving DecidableEq, Repr

/-- `Block::mine(difficulty)`: `loop { hash = calculate_hash();
if &hash[..difficulty] == "0".repeat(difficulty) { break } else
{ nonce += 1 } }`.  The slice `&hash[..difficulty]` panics when
`difficulty` exceeds the byte length of `hash`. -/
def mineFuel (H : String → String) (difficulty : Nat) :
    Nat → Block → MineResult
  | 0, _ => .outOfFuel
  | fuel + 1, b =>
    let b1 : Block := { b with hash := calculateHash H b }
    if difficulty ≤ b1.hash.length then
      if strTake b1.hash difficulty = zeros difficulty then .ok b1
      else mineFuel H difficulty fuel { b1 with nonce := b1.nonce + 1 }
    else .panicked

/-- The blockchain: an ordered sequence of blocks. -/
structure Blockchain where
  chain : List Block
  deriving DecidableEq, Repr, Inhabited

/-- `Blockchain::new`: a chain holding exactly the genesis block
`Block::new(0, now(), "0", "Genesis Block")`.  The clock reading `now()` is
the explicit parameter `t`. -/
def Blockchain.new (H : String → String) (t : Nat) : Blockchain :=
  { chain := [Block.new H 0 t "0" "Genesis Block"] }

/-- `Blockchain::add_block(data)`: build
`Block::new(chain.len(), now(), chain.last().unwrap().hash, data)`, mine it
at the hard-coded difficulty 4, and push it.  `none` models the
`.unwrap()` panic on an empty chain and any non-normal mining outcome. -/
def addBlockFuel (H : String → String) (fuel t : Nat) (data : String)
    (bc : Blockchain) : Option Blockchain :=
  match bc.chain.getLast? with
  | none => none
  | some lastB =>
    match mineFuel H 4 fuel (Block.new H bc.chain.length t lastB.hash data) with
    | .ok mined => some { chain := bc.chain ++ [mined] }
    | _ => none

/-- The body of `validate_chain`'s loop from the second block on: `prev`
is `chain[i-1]`, the list holds `chain[i], chain[i+1], ...`; return false
at the first block whose stored hash differs from its recomputed hash or
whose `previous_hash` differs from the predecessor's `hash`. -/
def checkFrom (H : String → String) : Block → List Block → Bool
  | _, [] => true
  | prev, cur :: rest =>
    if cur.hash = calculateHash H cur then
      if cur.previous_hash = prev.hash then checkFrom H cur rest
      else false
    else false

/-- `Blockchain::validate_chain`: a chain of length < 2 is valid; otherwise
run the loop `for i in 1..len` via `checkFrom`. -/
def validateChain (H : String → String) (chain : List Block) : Bool :=
  match chain with
  | [] => true
  | b :: rest => checkFrom H b rest

/-- The leaf hash of one transaction inside `create_merkle_root`:
digest of `format!("{:?}{:?}{:?}", sender, receiver, amount)`.  `{:?}` on a
Rust `String` renders it in double quotes (escaping of special characters
inside the quotes is not modelled; every string in this development is
plain ASCII text without quotes or backslashes); `{:?}` on the `f32`
`amount` is the stored rendering itself. -/
def leafHash (H : String → String) (t : Transaction) : String :=
  H ("\"" ++ t.sender ++ "\"" ++ "\"" ++ t.receiver ++ "\"" ++ t.amount)

/-- One pass of the `for i in (0..hashes.len()).step_by(2)` loop: adjacent
pairs are combined as `H (h_i ++ h_(i+1))`; a trailing unpaired hash is
pushed through unchanged. -/
def pairLevel (H : String → String) : List String → List String
  | [] => []
  | [x] => [x]
  | x :: y :: rest => H (x ++ y) :: pairLevel H rest

theorem pairLevel_length (H : String → String) (l : List String) :
    (pairLevel H l).length = (l.length + 1) / 2 := by
  induction l using pairLevel.induct H with
  | case1 => simp [pairLevel]
  | case2 x => simp [pairLevel]
  | case3 x y rest ih =>
    simp only [pairLevel, List.length_cons, ih]
    omega

/-- The `while hashes.len() > 1` loop of `create_merkle_root`. -/
def merkleLoop (H : String → String) (hashes : List String) : List String :=
  if h : 1 < hashes.length then merkleLoop H (pairLevel H hashes)
  else hashes
termination_by hashes.length
decreasing_by
  simp only [pairLevel_length]
  omega

/-- `Transaction::create_merkle_root`: hash each transaction into a leaf,
fold levels until one hash remains, then return `hashes[0]` — which
panics (modelled as `none`) when the vector is empty. -/
def createMerkleRoot (H : String → String) (transactions : List Transaction) :
    Option String :=
  (merkleLoop H (transactions.map (leafHash H))).head?

/-! ### Concrete hashers used by witnesses and counterexamples

Theorems about the program are stated for every digest `H`; the closed
witness and counterexample theorems instantiate `H` with computable
stand-ins so the definitions can be evaluated. -/

/-- A 64-character hex string of zeros. -/
def zeros64 : String :=
  "0000000000000000000000000000000000000000000000000000000000000000"

/-- Constant digest whose output is 64 zero hex characters: makes every
mining attempt succeed immediately, at any difficulty up to 64. -/
def Hz : String → String := fun _ => zeros64

/-- Injective marker digest for validation scenarios, where only
distinctness of digests of distinct inputs matters, not their length. -/
def Hid : String → String := fun s => "#" ++ s

/-! ### Concrete fixtures for witnesses and counterexamples -/

/-- A genesis-shaped block before its hash is filled in. -/
def g0 : Block :=
  { index := 0, timestamp := 0, transactions := [], previous_hash := "0",
    hash := "", nonce := 0, data := "Genesis Block" }

/-- `g0` with its stored hash set from its own content, under `Hid`. -/
def g0m : Block := { g0 with hash := calculateHash Hid g0 }

/-- A successor block of `g0m` before its hash is filled in. -/
def b1 : Block :=
  { index := 1, timestamp := 5, transactions := [], previous_hash := g0m.hash,
    hash := "", nonce := 0, data := "B1" }

/-- `b1` with its stored hash set from its own content, under `Hid`. -/
def b1m : Block := { b1 with hash := calculateHash Hid b1 }

/-- `g0m` with its payload tampered but its stored hash left unchanged. -/
def g0T : Block := { g0m with data := "TAMPERED" }

/-- A sample transaction. -/
def tx1 : Transaction := { sender := "alice", receiver := "bob", amount := "10.0" }

/-- A fresh block mined under the constant digest `Hz`. -/
def gB : Block := Block.new Hz 0 0 "0" "Genesis Block"

/-- What `mine` under `Hz` turns `gB` into. -/
def gBmined : Block := { gB with hash := zeros64 }

/-! ### Helper lemmas -/

/-- The adjacent-pair condition `validate_chain` checks: the block's stored
hash matches its recomputed hash, and its `previous_hash` matches the
predecessor's stored hash. -/
def linkOk (H : String → String) (p c : Block) : Prop :=
  c.hash = calculateHash H c ∧ c.previous_hash = p.hash

theorem checkFrom_iff_chain (H : String → String) :
    ∀ (l : List Block) (prev : Block),
      checkFrom H prev l = true ↔ List.Chain' (linkOk H) (prev :: l) := by
  intro l
  induction l with
  | nil =>
    intro prev
    simp [checkFrom, List.chain'_singleton]
  | cons cur rest ih =>
    intro prev
    rw [List.chain'_cons]
    by_cases h1 : cur.hash = calculateHash H cur
    · by_cases h2 : cur.previous_hash = prev.hash
      · simp [checkFrom, h1, h2, ih cur, linkOk]
      · simp [checkFrom, h1, h2, linkOk]
    · simp [checkFrom, h1, linkOk]

theorem validateChain_iff_chain (H : String → String) (c : List Block) :
    validateChain H c = true ↔ List.Chain' (linkOk H) c := by
  cases c with
  | nil => simp [validateChain, List.chain'_nil]
  | cons b rest => simpa [validateChain] using checkFrom_iff_chain H rest b

theorem merkleLoop_small (H : String → String) (l : List String)
    (h : l.length ≤ 1) : merkleLoop H l = l := by
  rw [merkleLoop, dif_neg (by omega)]

theorem merkleLoop_step (H : String → String) (x y : String)
    (rest : List String) :
    merkleLoop H (x :: y :: rest) = merkleLoop H (pairLevel H (x :: y :: rest)) := by
  rw [merkleLoop, dif_pos (by simp)]

/-- `mine` only ever writes the `hash` and `nonce` fields; every other
field of a successfully mined block is the field of the input block. -/
theorem mineFuel_ok_fields (H : String → String) (d : Nat) :
    ∀ (fuel : Nat) (b b' : Block), mineFuel H d fuel b = .ok b' →
      b'.index = b.index ∧ b'.timestamp = b.timestamp ∧
      b'.previous_hash = b.previous_hash ∧ b'.data = b.data ∧
      b'.transactions = b.transactions := by
  intro fuel
  induction fuel with
  | zero => intro b b' h; simp [mineFuel] at h
  | succ n ih =>
    intro b b' h
    rw [mineFuel] at h
    by_cases h1 : d ≤ ({ b with hash := calculateHash H b } : Block).hash.length
    · rw [if_pos h1] at h
      by_cases h2 :
          strTake ({ b with hash := calculateHash H b } : Block).hash d = zeros d
      · rw [if_pos h2] at h
        cases h
        exact ⟨rfl, rfl, rfl, rfl, rfl⟩
      · rw [if_neg h2] at h
        obtain ⟨e1, e2, e3, e4, e5⟩ := ih _ _ h
        exact ⟨e1, e2, e3, e4, e5⟩
    · rw [if_neg h1] at h
      cases h

/-! ### Claim theorems -/

/-- C1: for every difficulty `d ≤ 4` and every block, whenever `mine(d)`
completes normally, the resulting block's stored hash has at least `d`
leading `'0'` characters in its hex representation, and `calculate_hash()`
recomputed from the block's final state equals the stored hash field. -/
theorem mine_spec (H : String → String) (d fuel : Nat) (b b' : Block)
    (hd : d ≤ 4) (h : mineFuel H d fuel b = .ok b') :
    b'.hash.data.take d = List.replicate d '0' ∧
    b'.hash = calculateHash H b' := by
  clear hd
  induction fuel generalizing b with
  | zero => simp [mineFuel] at h
  | succ n ih =>
    rw [mineFuel] at h
    by_cases h1 : d ≤ ({ b with hash := calculateHash H b } : Block).hash.length
    · rw [if_pos h1] at h
      by_cases h2 :
          strTake ({ b with hash := calculateHash H b } : Block).hash d = zeros d
      · rw [if_pos h2] at h
        cases h
        refine ⟨?_, rfl⟩
        have := congrArg String.data h2
        simpa [strTake, zeros] using this
      · rw [if_neg h2] at h
        exact ih _ h
    · rw [if_neg h1] at h
      cases h

/-- Witness for C1 at difficulty 4 with the concrete digest `Hz`, which
makes mining finish on the first iteration. -/
theorem mine_spec_witness :
    4 ≤ 4 ∧ (gBmined.hash.data.take 4 = List.replicate 4 '0' ∧
      gBmined.hash = calculateHash Hz gBmined) :=
  ⟨by decide, mine_spec Hz 4 1 gB gBmined (by decide) (by decide)⟩

/-- C3: `validate_chain` returns true on every chain of length < 2, and on
longer chains it returns true exactly when every block from index 1 on has
a stored hash equal to its recomputed `calculate_hash()` and a
`previous_hash` equal to the predecessor's stored hash (so it returns
false exactly when some position has a mismatch). -/
theorem validate_chain_spec (H : String → String) (c : List Block) :
    (c.length < 2 → validateChain H c = true) ∧
    (validateChain H c = true ↔
      ∀ (i : ℕ) (h : i + 1 < c.length),
        (c.get ⟨i + 1, h⟩).hash = calculateHash H (c.get ⟨i + 1, h⟩) ∧
        (c.get ⟨i + 1, h⟩).previous_hash = (c.get ⟨i, by omega⟩).hash) := by
  constructor
  · intro hlen
    rw [validateChain_iff_chain]
    match c, hlen with
    | [], _ => exact List.chain'_nil
    | [b], _ => exact List.chain'_singleton b
  · rw [validateChain_iff_chain, List.chain'_iff_get]
    constructor
    · intro hall i h
      exact hall i (by omega)
    · intro hall i h
      exact hall i (by omega)

/-- Witness for C3: a one-block chain is trivially valid. -/
theorem validate_chain_spec_witness : validateChain Hid [g0m] = true :=
  (validate_chain_spec Hid [g0m]).1 (by decide)

/-- C2 (code evaluation): `calculate_hash` reads only
`(index, timestamp, previous_hash, data, nonce)`; the `transactions` field
— and hence any Merkle root of it — never enters the hashed input, so two
blocks differing only in `transactions` hash identically. -/
theorem calculate_hash_ignores_transactions (H : String → String) (b : Block)
    (txs : List Transaction) :
    calculateHash H { b with transactions := txs } = calculateHash H b := rfl

/-- C4 (code evaluation at the failing input): in a valid two-block chain,
replacing the second block's transaction list while leaving its stored
hash untouched is not detected — `validate_chain` still returns true,
because `calculate_hash` never reads the transactions. -/
theorem tamper_transactions_undetected :
    validateChain Hid [g0m, b1m] = true ∧
    ({ b1m with transactions := [tx1] } : Block).transactions ≠
      b1m.transactions ∧
    validateChain Hid [g0m, { b1m with transactions := [tx1] }] = true :=
  ⟨by decide, by decide, by decide⟩

/-- C5 counterexample: at difficulty 65 (greater than the 64 hex characters
of the digest), `mine` does not return or signal any error value — it hits
the out-of-range slice panic on its first iteration. -/
theorem mine_difficulty_65_no_error : mineFuel Hz 65 1 gB = .panicked := by
  decide

/-- C5 as amended: with a 64-hex-character digest, calling `mine(d)` for
`d > 64` panics on the slice `&hash[..d]` during the first loop iteration
— it fails fast rather than looping forever, but via an index panic, not a
defined `InvalidDifficulty` error. -/
theorem mine_overlong_difficulty_panics (H : String → String) (d fuel : Nat)
    (b : Block) (hlen : ∀ s, (H s).length = 64) (hd : 64 < d)
    (hfuel : 0 < fuel) : mineFuel H d fuel b = .panicked := by
  obtain ⟨n, rfl⟩ : ∃ n, fuel = n + 1 := ⟨fuel - 1, by omega⟩
  have hc : ¬ d ≤ ({ b with hash := calculateHash H b } : Block).hash.length := by
    show ¬ d ≤ (H (headers b)).length
    rw [hlen]
    omega
  rw [mineFuel, if_neg hc]

/-- Witness for the amended C5 at a concrete digest of output length 64. -/
theorem mine_overlong_difficulty_panics_witness :
    mineFuel Hz 65 3 g0 = .panicked :=
  mine_overlong_difficulty_panics Hz 65 3 g0
    (fun _ => by show zeros64.length = 64; decide) (by decide) (by decide)

/-- C6 as amended: `create_merkle_root` applied to the empty transaction
list reaches `hashes[0]` on an empty vector — an out-of-bounds panic
(modelled as `none`); no sentinel root is produced. -/
theorem merkle_root_empty_panics (H : String → String) :
    createMerkleRoot H [] = none := by
  rw [createMerkleRoot, List.map_nil, merkleLoop_small H [] (by simp)]
  rfl

/-- C6 counterexample: at a concrete digest, the empty transaction list
yields no root at all (the claimed sentinel-root return does not happen). -/
theorem merkle_root_empty_panics_concrete : createMerkleRoot Hid [] = none := by
  rw [createMerkleRoot, List.map_nil, merkleLoop_small Hid [] (by simp)]
  rfl

/-- C7: over exactly three leaves the Merkle computation combines
`(leaf1, leaf2)` into `H (leaf1 ++ leaf2)`, carries `leaf3` forward
unchanged, and returns `H (combined ++ leaf3)`; and in general one level
pass over an odd-length list carries its last hash to the next level
unchanged. -/
theorem merkle_three_leaves_carry (H : String → String) :
    (∀ t1 t2 t3 : Transaction,
      createMerkleRoot H [t1, t2, t3] =
        some (H (H (leafHash H t1 ++ leafHash H t2) ++ leafHash H t3))) ∧
    (∀ hs : List String, hs.length % 2 = 1 →
      (pairLevel H hs).getLast? = hs.getLast?) := by
  constructor
  · intro t1 t2 t3
    rw [createMerkleRoot]
    simp only [List.map_cons, List.map_nil]
    rw [merkleLoop_step]
    simp only [pairLevel]
    rw [merkleLoop_step]
    simp only [pairLevel]
    rw [merkleLoop_small _ _ (by simp)]
    rfl
  · intro hs
    induction hs using pairLevel.induct H with
    | case1 => intro h; simp at h
    | case2 x => intro h; simp [pairLevel]
    | case3 x y rest ih =>
      intro hodd
      have hrlen : rest.length % 2 = 1 := by
        have hl := hodd
        simp only [List.length_cons] at hl
        omega
      have hplne : pairLevel H rest ≠ [] := by
        intro hn
        have hlen0 := pairLevel_length H rest
        rw [hn] at hlen0
        simp at hlen0
        omega
      simp only [pairLevel]
      obtain ⟨p, pl', hpl⟩ := List.exists_cons_of_ne_nil hplne
      have l1 : (H (x ++ y) :: pairLevel H rest).getLast? =
          (pairLevel H rest).getLast? := by
        rw [hpl, List.getLast?_cons_cons]
      rw [l1, ih hrlen]
      obtain ⟨r, rest', rfl⟩ := List.exists_cons_of_ne_nil
        (show rest ≠ [] by intro hn; rw [hn] at hrlen; simp at hrlen)
      rw [List.getLast?_cons_cons, List.getLast?_cons_cons]

/-- Witness for C7's odd-level carry rule at a concrete three-hash level. -/
theorem merkle_three_leaves_carry_witness :
    (pairLevel Hid ["a", "b", "c"]).getLast? = some "c" :=
  ((merkle_three_leaves_carry Hid).2 ["a", "b", "c"] (by decide)).trans
    (by decide)

/-- C8: `Blockchain::new` produces a chain of exactly one block — the
genesis block — whose `previous_hash` is the sentinel `"0"`, whose payload
is the fixed label `"Genesis Block"`, whose timestamp is the clock reading
taken at construction, and which is not mined: its nonce is 0 and its hash
is the one `calculate_hash()` gives for that state. -/
theorem blockchain_new_genesis (H : String → String) (t : Nat) :
    (Blockchain.new H t).chain.length = 1 ∧
    ∃ g, (Blockchain.new H t).chain = [g] ∧ g.index = 0 ∧ g.timestamp = t ∧
      g.previous_hash = "0" ∧ g.data = "Genesis Block" ∧ g.nonce = 0 ∧
      g.hash = calculateHash H g :=
  ⟨rfl, Block.new H 0 t "0" "Genesis Block", rfl, rfl, rfl, rfl, rfl, rfl, rfl⟩

/-- C9: whenever `add_block` completes, the new chain is the old chain
with exactly one block appended (no removal, reordering, or edit of
existing blocks — every old position still holds its old block), and the
appended block was built with index = old chain length, the supplied
timestamp and payload, `previous_hash` = the hash of the old last block,
and then mined at the hard-coded difficulty 4. -/
theorem add_block_spec (H : String → String) (fuel t : Nat) (data : String)
    (bc bc' : Blockchain) (h : addBlockFuel H fuel t data bc = some bc') :
    ∃ lastB b, bc.chain.getLast? = some lastB ∧
      mineFuel H 4 fuel (Block.new H bc.chain.length t lastB.hash data) =
        .ok b ∧
      bc'.chain = bc.chain ++ [b] ∧
      b.index = bc.chain.length ∧ b.timestamp = t ∧ b.data = data ∧
      b.previous_hash = lastB.hash ∧
      (∀ i, i < bc.chain.length → bc'.chain[i]? = bc.chain[i]?) := by
  rw [addBlockFuel] at h
  split at h
  · cases h
  · next lastB hgl =>
      split at h
      · next mined hm =>
          cases h
          obtain ⟨e1, e2, e3, e4, _⟩ := mineFuel_ok_fields H 4 fuel _ _ hm
          exact ⟨lastB, mined, hgl, hm, rfl, e1, e2, e4, e3,
            fun i hi => List.getElem?_append_left hi⟩
      · cases h

/-- A fresh one-block chain under the constant digest `Hz`. -/
def bc0 : Blockchain := Blockchain.new Hz 0

/-- The block `add_block` builds and mines when appending to `bc0`. -/
def nb1 : Block := Block.new Hz 1 1 zeros64 "B1"

/-- The two-block chain `add_block` leaves behind. -/
def bc1 : Blockchain := { chain := bc0.chain ++ [nb1] }

/-- Witness for C9: appending one block to a fresh chain under the
constant digest `Hz`, which mines in a single iteration. -/
theorem add_block_spec_witness :
    ∃ lastB b, bc0.chain.getLast? = some lastB ∧
      mineFuel Hz 4 1 (Block.new Hz bc0.chain.length 1 lastB.hash "B1") =
        .ok b ∧
      bc1.chain = bc0.chain ++ [b] ∧
      b.index = bc0.chain.length ∧ b.timestamp = 1 ∧ b.data = "B1" ∧
      b.previous_hash = lastB.hash ∧
      (∀ i, i < bc0.chain.length → bc1.chain[i]? = bc0.chain[i]?) :=
  add_block_spec Hz 1 1 "B1" bc0 bc1 (by decide)

/-- C10: `validate_chain` never recomputes the genesis block's own content
hash — it reads only the genesis block's stored `hash` field — so
replacing the genesis block by any block with the same stored hash (e.g.
one with tampered payload, timestamp, or nonce) leaves the verdict
unchanged. -/
theorem validate_ignores_genesis_content (H : String → String)
    (b0 b0' : Block) (rest : List Block) (h : b0.hash = b0'.hash) :
    validateChain H (b0 :: rest) = validateChain H (b0' :: rest) := by
  cases rest with
  | nil => rfl
  | cons c rs =>
    show checkFrom H b0 (c :: rs) = checkFrom H b0' (c :: rs)
    rw [checkFrom, checkFrom, h]

/-- Witness for C10: a concrete valid two-block chain whose genesis
payload is tampered with (stored hash left unchanged) still validates. -/
theorem validate_ignores_genesis_content_witness :
    validateChain Hid [g0T, b1m] = true :=
  ((validate_ignores_genesis_content Hid g0m g0T [b1m] rfl).symm).trans
    (by decide)
